import Mathlib

/-!
Shallow embedding of the core of `skyrmion_model_widget.ipynb`:
the triangular-lattice geometry generator (`init_coordinates`, `get_index`,
`hexagon_corners`, `init_corners`) and the analytic skyrmion spin-field
evaluator (`s_skyrmion`, `get_spins`).  Machine floating-point arithmetic is
modelled by the real numbers; numpy's `arctan2` is modelled by the standard
two-argument arctangent convention (`atan2 0 0 = 0`).
-/

open Classical

/-- Model of `numpy.arctan2 y x` over the reals: the angle of the point
`(x, y)` in `(-π, π]`, with `atan2 0 0 = 0`. -/
noncomputable def atan2 (y x : ℝ) : ℝ :=
  if 0 < x then Real.arctan (y / x)
  else if x < 0 then
    (if 0 ≤ y then Real.arctan (y / x) + Real.pi else Real.arctan (y / x) - Real.pi)
  else (if 0 < y then Real.pi / 2 else if y < 0 then -(Real.pi / 2) else 0)

/-- `get_index(nx, ny, i, j)` from the notebook: the linear index `i + j*nx`
for in-range ordinals, and the sentinel `-1` for out-of-range `(i, j)`.
The ordinals are integers, as in the Python source, where negative values
are possible inputs. -/
def get_index (nx ny : ℕ) (i j : ℤ) : ℤ :=
  if i < 0 ∨ j < 0 ∨ (nx : ℤ) ≤ i ∨ (ny : ℤ) ≤ j then -1
  else i + j * nx

/-- The point the loop body of `init_coordinates` stores for ordinals
`(i, j)`: `r = (sign * dx/2 + i*dx + dx/2, j*dy + h/2, 0)` with
`dy = sqrt(3)*radius`, `dx = 2*radius`, `h = dx*2/sqrt(3)`, and
`sign = 1` when `j` is even, `0` when `j` is odd. -/
noncomputable def latticePoint (radius : ℝ) (i j : ℕ) : ℝ × ℝ × ℝ :=
  let dy := Real.sqrt 3 * radius
  let dx := 2 * radius
  let h := dx * 2 / Real.sqrt 3
  let sign : ℝ := if j % 2 = 0 then 1 else 0
  (sign * dx / 2 + (i : ℝ) * dx + dx / 2, (j : ℝ) * dy + h / 2, 0)

/-- `init_coordinates(nx, ny, radius)` from the notebook.  The source fills a
length-`nx*ny` array, writing the point for ordinals `(i, j)` at position
`get_index nx ny i j = i + j*nx` while looping `j` over `range ny` and `i`
over `range nx`; those write positions enumerate `0, 1, ..., nx*ny - 1` in
loop order, so the array is exactly the row-major concatenation of the rows. -/
noncomputable def init_coordinates (nx ny : ℕ) (radius : ℝ) : List (ℝ × ℝ × ℝ) :=
  (List.range ny).flatMap fun j => (List.range nx).map fun i => latticePoint radius i j

/-- `hexagon_corners(x, y, radius)` from the notebook: the six corners of the
hexagon centred at `(x, y)` with circumradius `radius`, at angles
`60*k + 30` degrees, `k = 0..5`. -/
noncomputable def hexagon_corners (x y radius : ℝ) : List (ℝ × ℝ × ℝ) :=
  (List.range 6).map fun k =>
    let angle_deg : ℝ := 60 * (k : ℝ) + 30
    let theta := angle_deg * Real.pi / 180
    (x + radius * Real.cos theta, y + radius * Real.sin theta, 0)

/-- `init_corners(coordinates, nx, ny, radius)` from the notebook.  The body
reads the module-level lattice array `c` (modelled here as the explicit
argument `c`), not the `coordinates` parameter: the source line is
`x, y = c[index][0], c[index][1]`.  The trailing `corners[:, :, :2]` slice
drops the z component of every corner. -/
noncomputable def init_corners (coordinates : List (ℝ × ℝ × ℝ)) (c : List (ℝ × ℝ × ℝ))
    (nx ny : ℕ) (radius : ℝ) : List (List (ℝ × ℝ)) :=
  let dx := 2 * radius
  let h := dx * 2 / Real.sqrt 3
  let cells := (List.range ny).flatMap fun j =>
    (List.range nx).map fun i =>
      let index := get_index nx ny i j
      let p := c.getD index.toNat (0, 0, 0)
      hexagon_corners p.1 p.2.1 (h * 0.5)
  cells.map fun cell => cell.map fun q => (q.1, q.2.1)

/-- `s_skyrmion(r, r_sk, center, helicity, vorticity, chirality)` from the
notebook: the linear skyrmion profile inside the disk `rho ≤ r_sk`, the
uniform background `(0, 0, chirality)` outside it. -/
noncomputable def s_skyrmion (r : ℝ × ℝ × ℝ) (r_sk : ℝ) (center : ℝ × ℝ)
    (helicity vorticity chirality : ℝ) : ℝ × ℝ × ℝ :=
  let x := r.1 - center.1
  let y := r.2.1 - center.2
  let rho := Real.sqrt (x ^ 2 + y ^ 2)
  let psi := vorticity * atan2 y x + helicity
  let k := Real.pi / r_sk
  if rho ≤ r_sk then
    (chirality * Real.sin (k * rho) * Real.cos psi,
     chirality * Real.sin (k * rho) * Real.sin psi,
     -chirality * Real.cos (k * rho))
  else (0, 0, chirality)

/-- The Euclidean norm of a spin vector. -/
noncomputable def spinNorm (v : ℝ × ℝ × ℝ) : ℝ :=
  Real.sqrt (v.1 ^ 2 + v.2.1 ^ 2 + v.2.2 ^ 2)

/-- `get_spins(coordinates, r_sk, center, helicity, vorticity, chirality)`
from the notebook: evaluate `s_skyrmion` at every coordinate, then divide
each resulting vector whose norm is positive by its norm
(`spin[spin_n > 0] /= spin_n[spin_n > 0][:, np.newaxis]`). -/
noncomputable def get_spins (coordinates : List (ℝ × ℝ × ℝ)) (r_sk : ℝ) (center : ℝ × ℝ)
    (helicity vorticity chirality : ℝ) : List (ℝ × ℝ × ℝ) :=
  let spin := coordinates.map fun r => s_skyrmion r r_sk center helicity vorticity chirality
  spin.map fun v =>
    let n := spinNorm v
    if 0 < n then (v.1 / n, v.2.1 / n, v.2.2 / n) else v

/-! Helper lemmas about the row-major layout of `init_coordinates`. -/

/-- The length of a row-major concatenation of `ny` rows of `nx` entries. -/
theorem flatMap_rows_length {α : Type} (g : ℕ → ℕ → α) (nx ny : ℕ) :
    ((List.range ny).flatMap fun j => (List.range nx).map fun i => g i j).length = ny * nx := by
  induction ny with
  | zero => simp
  | succ m ih =>
    rw [List.range_succ, List.flatMap_append, List.length_append, ih]
    simp [Nat.succ_mul]

/-- Entry `i + j * nx` of a row-major concatenation is the `(i, j)` entry. -/
theorem flatMap_rows_getElem {α : Type} (g : ℕ → ℕ → α) (nx ny i j : ℕ)
    (hi : i < nx) (hj : j < ny) :
    ((List.range ny).flatMap fun j => (List.range nx).map fun i => g i j)[i + j * nx]? =
      some (g i j) := by
  induction ny with
  | zero => omega
  | succ m ih =>
    rw [List.range_succ, List.flatMap_append]
    rcases Nat.lt_or_ge j m with hjm | hjm
    · rw [List.getElem?_append_left, ih hjm]
      rw [flatMap_rows_length]
      calc i + j * nx < nx + j * nx := by omega
        _ ≤ nx + (m - 1) * nx := by
              have : j ≤ m - 1 := by omega
              exact Nat.add_le_add_left (Nat.mul_le_mul_right nx this) nx
        _ = (m - 1 + 1) * nx := by ring
        _ = m * nx := by congr 1; omega
    · have hjm' : j = m := by omega
      subst hjm'
      rw [List.getElem?_append_right]
      · rw [flatMap_rows_length]
        have : i + j * nx - j * nx = i := by omega
        simp only [List.flatMap_cons, List.flatMap_nil, List.append_nil, this]
        rw [List.getElem?_map, List.getElem?_range hi]
        rfl
      · rw [flatMap_rows_length]; omega

/-- `init_coordinates` stores `latticePoint radius i j` at linear index `i + j*nx`. -/
theorem init_coordinates_getElem (nx ny : ℕ) (radius : ℝ) (i j : ℕ)
    (hi : i < nx) (hj : j < ny) :
    (init_coordinates nx ny radius)[i + j * nx]? = some (latticePoint radius i j) :=
  flatMap_rows_getElem (fun i j => latticePoint radius i j) nx ny i j hi hj

/-- `getD` at an index known to hold a value returns that value. -/
theorem getD_of_getElem_some {α : Type} (l : List α) (n : ℕ) (a d : α)
    (h : l[n]? = some a) : l.getD n d = a := by
  rw [List.getD_eq_getElem?_getD, h]; rfl

/-- C7: for every nx ≥ 1, ny ≥ 1, radius > 0, the point of `init_coordinates`
at row `j`, column `i` is stored at linear index `i + j*nx` and has
coordinates `x = offset(j) + i*dx + dx/2`, `y = j*dy + h/2`, with
`dx = 2*radius`, `dy = sqrt(3)*radius`, `h = dx*2/sqrt(3)`, and
`offset(j) = dx/2` for even `j`, `0` for odd `j`. -/
theorem init_coordinates_point_formula (nx ny : ℕ) (radius : ℝ) (i j : ℕ)
    (hnx : 1 ≤ nx) (hny : 1 ≤ ny) (hr : 0 < radius) (hi : i < nx) (hj : j < ny) :
    (init_coordinates nx ny radius).getD (i + j * nx) (0, 0, 0) =
      ((if j % 2 = 0 then 2 * radius / 2 else 0) + (i : ℝ) * (2 * radius) + 2 * radius / 2,
       (j : ℝ) * (Real.sqrt 3 * radius) + (2 * radius * 2 / Real.sqrt 3) / 2,
       0) := by
  rw [getD_of_getElem_some _ _ _ _ (init_coordinates_getElem nx ny radius i j hi hj)]
  simp only [latticePoint]
  split_ifs with h <;> norm_num

/-- C7 witness: the formula evaluated at nx = ny = 2, radius = 1, i = j = 1. -/
theorem init_coordinates_point_formula_witness :
    (init_coordinates 2 2 1).getD (1 + 1 * 2) (0, 0, 0) =
      ((if 1 % 2 = 0 then 2 * (1 : ℝ) / 2 else 0) + (1 : ℝ) * (2 * 1) + 2 * 1 / 2,
       (1 : ℝ) * (Real.sqrt 3 * 1) + (2 * 1 * 2 / Real.sqrt 3) / 2,
       0) := by
  have h := init_coordinates_point_formula 2 2 1 1 1 (by norm_num) (by norm_num) (by norm_num)
    (by norm_num) (by norm_num)
  simpa using h

/-- C6 counterexample: with nx = 1, ny = 2, radius = 1 the point of the odd
row (j = 1) does NOT have its x-coordinate offset by +dx/2 relative to the
even row (j = 0): the odd-row x is 1 while the even-row x plus dx/2 is 3. -/
theorem init_coordinates_odd_offset_cex :
    ((init_coordinates 1 2 1).getD (0 + 1 * 1) (0, 0, 0)).1 ≠
      ((init_coordinates 1 2 1).getD (0 + 0 * 1) (0, 0, 0)).1 + 2 * 1 / 2 := by
  rw [getD_of_getElem_some _ _ _ _ (init_coordinates_getElem 1 2 1 0 1 (by norm_num) (by norm_num)),
      getD_of_getElem_some _ _ _ _ (init_coordinates_getElem 1 2 1 0 0 (by norm_num) (by norm_num))]
  simp only [latticePoint]
  norm_num

/-- C6 amended: it is the even-indexed rows whose x-coordinates are offset by
+dx/2 relative to the odd-indexed rows (dx = 2*radius): for any column i and
rows je (even) and jo (odd), x(i, je) = x(i, jo) + dx/2. -/
theorem init_coordinates_even_row_offset (nx ny : ℕ) (radius : ℝ) (i je jo : ℕ)
    (hi : i < nx) (hje : je < ny) (hjo : jo < ny)
    (he : je % 2 = 0) (ho : jo % 2 = 1) :
    ((init_coordinates nx ny radius).getD (i + je * nx) (0, 0, 0)).1 =
      ((init_coordinates nx ny radius).getD (i + jo * nx) (0, 0, 0)).1 + 2 * radius / 2 := by
  rw [getD_of_getElem_some _ _ _ _ (init_coordinates_getElem nx ny radius i je hi hje),
      getD_of_getElem_some _ _ _ _ (init_coordinates_getElem nx ny radius i jo hi hjo)]
  simp only [latticePoint]
  rw [if_pos he, if_neg (by omega : ¬ jo % 2 = 0)]
  ring

/-- C6 amended witness: the even-row offset at nx = 1, ny = 2, radius = 1,
i = 0, je = 0, jo = 1. -/
theorem init_coordinates_even_row_offset_witness :
    ((init_coordinates 1 2 1).getD (0 + 0 * 1) (0, 0, 0)).1 =
      ((init_coordinates 1 2 1).getD (0 + 1 * 1) (0, 0, 0)).1 + 2 * 1 / 2 :=
  init_coordinates_even_row_offset 1 2 1 0 0 1 (by norm_num) (by norm_num) (by norm_num)
    (by norm_num) (by norm_num)

/-- C4 counterexample: `init_coordinates` does not fail on a non-positive
radius: at nx = ny = 1, radius = -1 ≤ 0 it still returns the full
nx*ny = 1 point sequence rather than raising any error. -/
theorem init_coordinates_no_validation_cex :
    (-1 : ℝ) ≤ 0 ∧ (init_coordinates 1 1 (-1)).length = 1 * 1 :=
  ⟨by norm_num, flatMap_rows_length (fun i j => latticePoint (-1) i j) 1 1⟩

/-- C4 amended: `init_coordinates` performs no argument validation and never
fails: for every nx, ny and every radius (including radius ≤ 0, and nx or ny
equal to 0, where it returns an empty sequence without error), it returns the
full nx*ny point sequence. -/
theorem init_coordinates_total_length (nx ny : ℕ) (radius : ℝ) :
    (init_coordinates nx ny radius).length = nx * ny := by
  rw [Nat.mul_comm]
  exact flatMap_rows_length (fun i j => latticePoint radius i j) nx ny

/-- C8: for every nx ≥ 1, ny ≥ 1, `get_index` is a bijection from the valid
pairs (0 ≤ i < nx, 0 ≤ j < ny) onto [0, nx*ny) — each valid pair gets the
unique index i + j*nx in that range, the map is injective and surjective —
every out-of-range (i, j) returns the sentinel -1, and `init_coordinates`
returns exactly nx*ny points. -/
theorem get_index_bijection (nx ny : ℕ) (radius : ℝ) (hnx : 1 ≤ nx) (hny : 1 ≤ ny) :
    (∀ i j : ℤ, 0 ≤ i → i < nx → 0 ≤ j → j < ny →
        get_index nx ny i j = i + j * nx ∧
        0 ≤ get_index nx ny i j ∧ get_index nx ny i j < (nx : ℤ) * ny) ∧
    (∀ i₁ j₁ i₂ j₂ : ℤ, 0 ≤ i₁ → i₁ < nx → 0 ≤ j₁ → j₁ < ny →
        0 ≤ i₂ → i₂ < nx → 0 ≤ j₂ → j₂ < ny →
        get_index nx ny i₁ j₁ = get_index nx ny i₂ j₂ → i₁ = i₂ ∧ j₁ = j₂) ∧
    (∀ k : ℤ, 0 ≤ k → k < (nx : ℤ) * ny →
        ∃ i j : ℤ, 0 ≤ i ∧ i < nx ∧ 0 ≤ j ∧ j < ny ∧ get_index nx ny i j = k) ∧
    (∀ i j : ℤ, i < 0 ∨ j < 0 ∨ (nx : ℤ) ≤ i ∨ (ny : ℤ) ≤ j → get_index nx ny i j = -1) ∧
    (init_coordinates nx ny radius).length = nx * ny := by
  have hval : ∀ i j : ℤ, 0 ≤ i → i < nx → 0 ≤ j → j < ny →
      get_index nx ny i j = i + j * nx := by
    intro i j h1 h2 h3 h4
    simp only [get_index]
    rw [if_neg (by omega : ¬(i < 0 ∨ j < 0 ∨ (nx : ℤ) ≤ i ∨ (ny : ℤ) ≤ j))]
  have hnx0 : (0 : ℤ) < nx := by omega
  refine ⟨?_, ?_, ?_, ?_, ?_⟩
  · intro i j h1 h2 h3 h4
    rw [hval i j h1 h2 h3 h4]
    refine ⟨rfl, ?_, ?_⟩
    · have : 0 ≤ j * (nx : ℤ) := mul_nonneg h3 (le_of_lt hnx0)
      linarith
    · have hj' : j ≤ (ny : ℤ) - 1 := by omega
      have hjm : j * (nx : ℤ) ≤ ((ny : ℤ) - 1) * nx :=
        mul_le_mul_of_nonneg_right hj' (le_of_lt hnx0)
      have hc : (nx : ℤ) * ny = (ny : ℤ) * nx := mul_comm _ _
      linarith
  · intro i₁ j₁ i₂ j₂ h1 h2 h3 h4 h5 h6 h7 h8 heq
    rw [hval i₁ j₁ h1 h2 h3 h4, hval i₂ j₂ h5 h6 h7 h8] at heq
    have a1 : (i₁ + j₁ * (nx : ℤ)) % nx = i₁ := by
      rw [Int.add_mul_emod_self, Int.emod_eq_of_lt h1 h2]
    have a2 : (i₂ + j₂ * (nx : ℤ)) % nx = i₂ := by
      rw [Int.add_mul_emod_self, Int.emod_eq_of_lt h5 h6]
    rw [heq] at a1
    have e1 : i₁ = i₂ := a1.symm.trans a2
    have e2 : j₁ = j₂ := by
      have hj : j₁ * (nx : ℤ) = j₂ * nx := by rw [e1] at heq; linarith
      exact mul_right_cancel₀ (ne_of_gt hnx0) hj
    exact ⟨e1, e2⟩
  · intro k hk0 hk1
    have hi1 : 0 ≤ k % nx := Int.emod_nonneg k (ne_of_gt hnx0)
    have hi2 : k % nx < nx := Int.emod_lt_of_pos k hnx0
    have hj1 : 0 ≤ k / nx := Int.ediv_nonneg hk0 (le_of_lt hnx0)
    have hj2 : k / nx < ny := by
      rw [Int.ediv_lt_iff_lt_mul hnx0]
      have hc : (nx : ℤ) * ny = (ny : ℤ) * nx := mul_comm _ _
      linarith
    refine ⟨k % nx, k / nx, hi1, hi2, hj1, hj2, ?_⟩
    rw [hval _ _ hi1 hi2 hj1 hj2, mul_comm]
    exact Int.emod_add_ediv k nx
  · intro i j h
    simp only [get_index]
    rw [if_pos h]
  · rw [Nat.mul_comm]
    exact flatMap_rows_length (fun i j => latticePoint radius i j) nx ny

/-- C8 witness: the bijection, sentinel and length facts at nx = ny = 2,
radius = 1. -/
theorem get_index_bijection_witness :
    (∀ i j : ℤ, 0 ≤ i → i < 2 → 0 ≤ j → j < 2 →
        get_index 2 2 i j = i + j * 2 ∧
        0 ≤ get_index 2 2 i j ∧ get_index 2 2 i j < (2 : ℤ) * 2) ∧
    (∀ i₁ j₁ i₂ j₂ : ℤ, 0 ≤ i₁ → i₁ < 2 → 0 ≤ j₁ → j₁ < 2 →
        0 ≤ i₂ → i₂ < 2 → 0 ≤ j₂ → j₂ < 2 →
        get_index 2 2 i₁ j₁ = get_index 2 2 i₂ j₂ → i₁ = i₂ ∧ j₁ = j₂) ∧
    (∀ k : ℤ, 0 ≤ k → k < (2 : ℤ) * 2 →
        ∃ i j : ℤ, 0 ≤ i ∧ i < 2 ∧ 0 ≤ j ∧ j < 2 ∧ get_index 2 2 i j = k) ∧
    (∀ i j : ℤ, i < 0 ∨ j < 0 ∨ (2 : ℤ) ≤ i ∨ (2 : ℤ) ≤ j → get_index 2 2 i j = -1) ∧
    (init_coordinates 2 2 1).length = 2 * 2 := by
  have h := get_index_bijection 2 2 1 (by norm_num) (by norm_num)
  simpa using h

/-- C2: outside the skyrmion disk (`rho > r_sk`) the spin is exactly the
background vector `(0, 0, chirality)`, for every helicity and vorticity. -/
theorem s_skyrmion_outside (r : ℝ × ℝ × ℝ) (r_sk : ℝ) (center : ℝ × ℝ)
    (helicity vorticity chirality : ℝ)
    (h : r_sk < Real.sqrt ((r.1 - center.1) ^ 2 + (r.2.1 - center.2) ^ 2)) :
    s_skyrmion r r_sk center helicity vorticity chirality = (0, 0, chirality) := by
  simp only [s_skyrmion]
  rw [if_neg (not_le.mpr h)]

/-- C2 witness: at position (1, 0, 0), center (0, 0), r_sk = 1/2 the distance
rho = 1 exceeds r_sk and the spin is the background (0, 0, 1). -/
theorem s_skyrmion_outside_witness :
    (1 / 2 : ℝ) < Real.sqrt (((1 : ℝ) - 0) ^ 2 + ((0 : ℝ) - 0) ^ 2) ∧
      s_skyrmion (1, 0, 0) (1 / 2) (0, 0) 0 1 1 = (0, 0, 1) := by
  have e : ((1 : ℝ) - 0) ^ 2 + ((0 : ℝ) - 0) ^ 2 = 1 := by norm_num
  have h : (1 / 2 : ℝ) < Real.sqrt (((1 : ℝ) - 0) ^ 2 + ((0 : ℝ) - 0) ^ 2) := by
    rw [e, Real.sqrt_one]; norm_num
  exact ⟨h, s_skyrmion_outside (1, 0, 0) (1 / 2) (0, 0) 0 1 1 h⟩

/-- C3: at the exact skyrmion center (rho = 0) the spin is (0, 0, -chirality),
independent of helicity and vorticity. -/
theorem s_skyrmion_center (cx cy r_sk helicity vorticity chirality : ℝ)
    (h : 0 < r_sk) :
    s_skyrmion (cx, cy, 0) r_sk (cx, cy) helicity vorticity chirality =
      (0, 0, -chirality) := by
  simp only [s_skyrmion]
  norm_num [Real.sqrt_zero, Real.sin_zero, Real.cos_zero, h.le]

/-- C3 witness: at center (3, 4) with r_sk = 1, helicity = 0, vorticity = 1,
chirality = 1 the spin at the center is (0, 0, -1). -/
theorem s_skyrmion_center_witness :
    (0 : ℝ) < 1 ∧ s_skyrmion (3, 4, 0) 1 (3, 4) 0 1 1 = (0, 0, -1) :=
  ⟨by norm_num, s_skyrmion_center 3 4 1 0 1 1 (by norm_num)⟩

/-- C9: flipping chirality from +1 to -1 negates all three components of the
spin, for every position and every fixed r_sk, center, helicity, vorticity. -/
theorem s_skyrmion_chirality_flip (r : ℝ × ℝ × ℝ) (r_sk : ℝ) (center : ℝ × ℝ)
    (helicity vorticity : ℝ) :
    s_skyrmion r r_sk center helicity vorticity (-1) =
      (-(s_skyrmion r r_sk center helicity vorticity 1).1,
       -(s_skyrmion r r_sk center helicity vorticity 1).2.1,
       -(s_skyrmion r r_sk center helicity vorticity 1).2.2) := by
  simp only [s_skyrmion]
  split_ifs with hc
  · simp only [Prod.mk.injEq]
    refine ⟨by ring, by ring, by ring⟩
  · norm_num

/-- The squared norm of `chi * (sin A cos B, sin A sin B, -cos A)` is 1 when
`chi^2 = 1`. -/
theorem spin_comp_sq (chi A B : ℝ) (h2 : chi ^ 2 = 1) :
    (chi * Real.sin A * Real.cos B) ^ 2 + (chi * Real.sin A * Real.sin B) ^ 2 +
      (-chi * Real.cos A) ^ 2 = 1 := by
  have hA := Real.sin_sq_add_cos_sq A
  have hB := Real.sin_sq_add_cos_sq B
  linear_combination (chi ^ 2 * Real.sin A ^ 2) * hB + chi ^ 2 * hA + h2

/-- For chirality in {+1, -1} the raw (pre-normalization) spin vector has
squared norm exactly 1, in both branches of `s_skyrmion`. -/
theorem s_skyrmion_norm_sq (r : ℝ × ℝ × ℝ) (r_sk : ℝ) (center : ℝ × ℝ)
    (helicity vorticity chirality : ℝ) (hchi : chirality = 1 ∨ chirality = -1) :
    (s_skyrmion r r_sk center helicity vorticity chirality).1 ^ 2 +
      (s_skyrmion r r_sk center helicity vorticity chirality).2.1 ^ 2 +
      (s_skyrmion r r_sk center helicity vorticity chirality).2.2 ^ 2 = 1 := by
  have hchi2 : chirality ^ 2 = 1 := by rcases hchi with h | h <;> rw [h] <;> norm_num
  simp only [s_skyrmion]
  split_ifs with hc
  · exact spin_comp_sq chirality _ _ hchi2
  · norm_num [hchi2]

/-- C1: for every lattice and every parameter set with r_sk > 0, vorticity in
{-1, +1} and chirality in {-1, +1}, every spin vector returned by `get_spins`
has Euclidean norm 1. -/
theorem get_spins_norm_one (coordinates : List (ℝ × ℝ × ℝ)) (r_sk : ℝ) (center : ℝ × ℝ)
    (helicity vorticity chirality : ℝ) (hr : 0 < r_sk)
    (hv : vorticity = 1 ∨ vorticity = -1) (hchi : chirality = 1 ∨ chirality = -1) :
    ∀ s ∈ get_spins coordinates r_sk center helicity vorticity chirality,
      spinNorm s = 1 := by
  intro s hs
  simp only [get_spins, List.map_map, List.mem_map, Function.comp] at hs
  obtain ⟨p, hp, rfl⟩ := hs
  have hsq := s_skyrmion_norm_sq p r_sk center helicity vorticity chirality hchi
  have hn : spinNorm (s_skyrmion p r_sk center helicity vorticity chirality) = 1 := by
    rw [spinNorm, hsq, Real.sqrt_one]
  rw [if_pos (by rw [hn]; norm_num :
    (0 : ℝ) < spinNorm (s_skyrmion p r_sk center helicity vorticity chirality))]
  rw [hn]
  simp only [div_one]
  exact hn

/-- C1 witness: the norm-1 property for the one-point lattice [(0, 0, 0)] with
r_sk = 1, center (0, 0), helicity 0, vorticity 1, chirality 1. -/
theorem get_spins_norm_one_witness :
    (0 : ℝ) < 1 ∧ ((1 : ℝ) = 1 ∨ (1 : ℝ) = -1) ∧
      ∀ s ∈ get_spins [((0 : ℝ), 0, 0)] 1 (0, 0) 0 1 1, spinNorm s = 1 :=
  ⟨by norm_num, Or.inl rfl,
    get_spins_norm_one [(0, 0, 0)] 1 (0, 0) 0 1 1 (by norm_num) (Or.inl rfl) (Or.inl rfl)⟩

/-- C10: the output of `init_corners` does not depend on its `coordinates`
parameter: with the same module-level lattice array c and the same nx, ny,
radius, any two coordinate arguments give identical corner sequences,
because the body reads the global c rather than the parameter. -/
theorem init_corners_ignores_coordinates (coords₁ coords₂ c : List (ℝ × ℝ × ℝ))
    (nx ny : ℕ) (radius : ℝ) :
    init_corners coords₁ c nx ny radius = init_corners coords₂ c nx ny radius := rfl

/-- C5 divergence, evaluated: with the empty list as the `coordinates`
argument, one module-level lattice point c = [(5, 7, 0)] and nx = ny = 1,
`init_corners` still returns 1 hexagon (not 0, the input lattice's length),
taken from the global c; the claim would require output length 0. -/
theorem init_corners_global_read_bug :
    (init_corners [] [((5 : ℝ), 7, 0)] 1 1 1).length = 1 ∧
      ([] : List (ℝ × ℝ × ℝ)).length = 0 := ⟨rfl, rfl⟩
